import Mathlib

/-!
Verification of the composition-and-adaptive-compression engine of the
pdf2limage repository, embedded from `src/src/app/api/stitch-images/route.ts`.

The embedding covers:
- the ImageSet Loader (route.ts lines 173-189): sharp metadata inspection with
  `metadata.width || 0` defaulting;
- the Page Orderer (lines 191-202): the `Array.prototype.sort` call with the
  trailer-pinning comparator;
- the Canvas Compositor geometry (lines 204-237): `maxWidth`, `totalHeight`
  and the centering/stacking placement loop;
- the Quality Optimizer (lines 240-359): `createStitchedImage` and
  `findOptimalQuality` with its binary search over encode quality.

Byte sizes produced by the png encoder are abstracted as a deterministic
function `sizeOf : Int → Nat` of the quality parameter, matching the spec's
"deterministic for fixed inputs and quality".
-/

namespace Stitch

/-- Constant from route.ts line 11: `const DEFAULT_QUALITY = 80`. -/
def DEFAULT_QUALITY : Int := 80

/-- Constant from route.ts line 12: `const MIN_QUALITY = 60`. -/
def MIN_QUALITY : Int := 60

/-- Constant from route.ts line 13: `const MAX_FILE_SIZE_BYTES = 4 * 1024 * 1024`. -/
def MAX_FILE_SIZE_BYTES : Nat := 4 * 1024 * 1024

/-- Record produced per image by the loader at route.ts lines 178-183:
`{ path, width: metadata.width || 0, height: metadata.height || 0, name: path.basename(imagePath) }`. -/
structure ImageDetail where
  path : String
  width : Nat
  height : Nat
  name : String
deriving Repr, DecidableEq

/-- Embedding of route.ts line 205, `Math.max(...imageDetails.map(img => img.width))`.
For a non-empty list this is the maximum of the widths; the empty case is
unreachable in the route (empty uploads are rejected at line 133 with a 400
before any geometry is computed; JavaScript would give `-Infinity` there). -/
def maxWidth : List ImageDetail → Nat
  | [] => 0
  | i :: rest => rest.foldl (fun a j => max a j.width) i.width

/-- Embedding of route.ts line 209,
`imageDetails.reduce((sum, img) => sum + img.height, 0)`. -/
def totalHeight (l : List ImageDetail) : Nat :=
  l.foldl (fun s i => s + i.height) 0

/-- Element of the `compositeImages` array built at route.ts lines 220-237. -/
structure CompositeImage where
  input : String
  top : Int
  left : Int
deriving Repr, DecidableEq

/-- Embedding of the placement loop at route.ts lines 220-237: walk the ordered
details keeping a running `currentY`, emit
`{ input: img.path, top: currentY, left: Math.floor((maxWidth - img.width) / 2) }`
and advance `currentY += img.height`.  `Math.floor` of the halved difference is
`Int.fdiv _ 2` (floor division). -/
def placeLoop (maxW : Nat) (currentY : Int) : List ImageDetail → List CompositeImage
  | [] => []
  | img :: rest =>
    { input := img.path
      top := currentY
      left := Int.fdiv ((maxW : Int) - (img.width : Int)) 2 } ::
      placeLoop maxW (currentY + (img.height : Int)) rest

/-- The composite-image list the route hands to sharp, with the canvas width
taken from the same detail list (route.ts lines 205 and 220-237). -/
def compositeImagesOf (l : List ImageDetail) : List CompositeImage :=
  placeLoop (maxWidth l) 0 l

/-! Arithmetic facts about floor division by two. -/

theorem fdiv_two_bounds (a : Int) : 2 * Int.fdiv a 2 ≤ a ∧ a < 2 * Int.fdiv a 2 + 2 := by
  have h := Int.fdiv_add_fmod a 2
  have h1 : 0 ≤ Int.fmod a 2 := Int.fmod_nonneg' a (by decide)
  have h2 : Int.fmod a 2 < 2 := Int.fmod_lt_of_pos a (by decide)
  omega

/-! Facts about `maxWidth`. -/

theorem foldl_max_init_le (l : List ImageDetail) :
    ∀ b : Nat, b ≤ l.foldl (fun a j => max a j.width) b := by
  induction l with
  | nil => intro b; simp
  | cons i rest ih =>
    intro b
    have h := ih (max b i.width)
    simp only [List.foldl_cons]
    omega

theorem foldl_max_mem_le (l : List ImageDetail) :
    ∀ b : Nat, ∀ x ∈ l, x.width ≤ l.foldl (fun a j => max a j.width) b := by
  induction l with
  | nil => intro b x hx; simp at hx
  | cons i rest ih =>
    intro b x hx
    rcases List.mem_cons.mp hx with h | h
    · subst h
      have h2 := foldl_max_init_le rest (max b x.width)
      simp only [List.foldl_cons]
      omega
    · exact ih (max b i.width) x h

theorem foldl_max_attained (l : List ImageDetail) :
    ∀ b : Nat, l.foldl (fun a j => max a j.width) b = b ∨
      ∃ x ∈ l, l.foldl (fun a j => max a j.width) b = x.width := by
  induction l with
  | nil => intro b; left; simp
  | cons i rest ih =>
    intro b
    rcases ih (max b i.width) with h | ⟨x, hx, h⟩
    · simp only [List.foldl_cons] at h ⊢
      rcases max_choice b i.width with hm | hm
      · left; rw [h, hm]
      · right; exact ⟨i, List.mem_cons_self i rest, by rw [h, hm]⟩
    · right
      exact ⟨x, List.mem_cons_of_mem i hx, by simpa using h⟩

theorem width_le_maxWidth (l : List ImageDetail) (x : ImageDetail) (hx : x ∈ l) :
    x.width ≤ maxWidth l := by
  cases l with
  | nil => simp at hx
  | cons i rest =>
    rcases List.mem_cons.mp hx with h | h
    · subst h
      exact foldl_max_init_le rest x.width
    · exact foldl_max_mem_le rest i.width x h

theorem maxWidth_attained (l : List ImageDetail) (hl : l ≠ []) :
    ∃ x ∈ l, maxWidth l = x.width := by
  cases l with
  | nil => exact absurd rfl hl
  | cons i rest =>
    rcases foldl_max_attained rest i.width with h | ⟨x, hx, h⟩
    · exact ⟨i, List.mem_cons_self i rest, h⟩
    · exact ⟨x, List.mem_cons_of_mem i hx, h⟩

/-! Facts about `totalHeight`. -/

theorem foldl_height (l : List ImageDetail) :
    ∀ s : Nat, l.foldl (fun a i => a + i.height) s = s + (l.map fun i => i.height).sum := by
  induction l with
  | nil => intro s; simp
  | cons i rest ih =>
    intro s
    simp only [List.foldl_cons, List.map_cons, List.sum_cons]
    rw [ih]
    omega

theorem totalHeight_eq_sum (l : List ImageDetail) :
    totalHeight l = (l.map fun i => i.height).sum := by
  have h := foldl_height l 0
  simpa [totalHeight] using h

/-! Characterisation of the placement loop. -/

theorem placeLoop_getElem (maxW : Nat) :
    ∀ (l : List ImageDetail) (y : Int) (k : Nat) (img : ImageDetail),
      l[k]? = some img →
      (placeLoop maxW y l)[k]? = some
        { input := img.path
          top := y + (((l.take k).map fun i => i.height).sum : Int)
          left := Int.fdiv ((maxW : Int) - (img.width : Int)) 2 } := by
  intro l
  induction l with
  | nil => intro y k img h; simp at h
  | cons i rest ih =>
    intro y k img h
    cases k with
    | zero =>
      simp only [List.getElem?_cons_zero, Option.some.injEq] at h
      subst h
      simp [placeLoop]
    | succ k =>
      simp only [List.getElem?_cons_succ] at h
      have h2 := ih (y + (i.height : Int)) k img h
      simp only [placeLoop, List.getElem?_cons_succ, h2, List.take_succ_cons,
        List.map_cons, List.sum_cons, Option.some.injEq, CompositeImage.mk.injEq]
      refine ⟨trivial, by ring, trivial⟩

/-- Example pages from the spec scenario: heights {100, 200, 150} and
widths {50, 80, 60}, none named as the trailer. -/
def exPage1 : ImageDetail := { path := "p1.png", width := 50, height := 100, name := "p1.png" }

/-- Second example page. -/
def exPage2 : ImageDetail := { path := "p2.png", width := 80, height := 200, name := "p2.png" }

/-- Third example page. -/
def exPage3 : ImageDetail := { path := "p3.png", width := 60, height := 150, name := "p3.png" }

/-- The example page set of the spec scenario, in order. -/
def exPages : List ImageDetail := [exPage1, exPage2, exPage3]

/-- C2: for every non-empty set of loaded page images, the canvas height is the
exact sum of the page heights, and the canvas width is the maximum of the page
widths (an upper bound on every width that is attained by some page), hence
canvas width is at least every individual page width. -/
theorem c2_canvas_geometry (l : List ImageDetail) (hl : l ≠ []) :
    totalHeight l = (l.map fun i => i.height).sum ∧
    (∀ x ∈ l, x.width ≤ maxWidth l) ∧
    (∃ x ∈ l, maxWidth l = x.width) :=
  ⟨totalHeight_eq_sum l,
   fun x hx => width_le_maxWidth l x hx,
   maxWidth_attained l hl⟩

/-- Witness for C2 at the concrete example page set. -/
theorem c2_canvas_geometry_witness :
    totalHeight exPages = (exPages.map fun i => i.height).sum ∧
    (∀ x ∈ exPages, x.width ≤ maxWidth exPages) ∧
    (∃ x ∈ exPages, maxWidth exPages = x.width) :=
  c2_canvas_geometry exPages (by decide)

/-- C3: for every ordered page set, the placement of the page at index k has
top equal to the summed heights of the preceding pages and left equal to
floor((canvasWidth − pageWidth) / 2); every such left is nonnegative and
left + pageWidth stays within the canvas width.  Moreover the spec's concrete
scenario holds: pages of heights {100,200,150} and widths {50,80,60} give an
80×450 canvas with placements (top 0, left 15), (top 100, left 0),
(top 300, left 10). -/
theorem c3_placements :
    (∀ (l : List ImageDetail) (k : Nat) (img : ImageDetail), l[k]? = some img →
      (compositeImagesOf l)[k]? = some
        { input := img.path
          top := (((l.take k).map fun i => i.height).sum : Int)
          left := Int.fdiv ((maxWidth l : Int) - (img.width : Int)) 2 } ∧
      0 ≤ Int.fdiv ((maxWidth l : Int) - (img.width : Int)) 2 ∧
      Int.fdiv ((maxWidth l : Int) - (img.width : Int)) 2 + (img.width : Int) ≤ (maxWidth l : Int)) ∧
    maxWidth exPages = 80 ∧ totalHeight exPages = 450 ∧
    compositeImagesOf exPages =
      [{ input := "p1.png", top := 0, left := 15 },
       { input := "p2.png", top := 100, left := 0 },
       { input := "p3.png", top := 300, left := 10 }] := by
  refine ⟨?_, by decide, by decide, by decide⟩
  intro l k img h
  have hmem : img ∈ l := List.getElem?_mem h
  have hw : img.width ≤ maxWidth l := width_le_maxWidth l img hmem
  have hb := fdiv_two_bounds ((maxWidth l : Int) - (img.width : Int))
  refine ⟨?_, by omega, by omega⟩
  have h2 := placeLoop_getElem (maxWidth l) l 0 k img h
  simpa [compositeImagesOf] using h2

/-- Witness for C3: the third page of the example set, via the universally
quantified part of the theorem. -/
theorem c3_placements_witness :
    (compositeImagesOf exPages)[2]? = some
      { input := exPage3.path
        top := (((exPages.take 2).map fun i => i.height).sum : Int)
        left := Int.fdiv ((maxWidth exPages : Int) - (exPage3.width : Int)) 2 } ∧
    0 ≤ Int.fdiv ((maxWidth exPages : Int) - (exPage3.width : Int)) 2 ∧
    Int.fdiv ((maxWidth exPages : Int) - (exPage3.width : Int)) 2 + (exPage3.width : Int) ≤
      (maxWidth exPages : Int) :=
  c3_placements.1 exPages 2 exPage3 (by decide)

/-! The Page Orderer (route.ts lines 191-202). -/

/-- Reserved trailer name checked by the comparator at route.ts lines 197-198. -/
def trailerMarker : String := "lastpic.png"

/-- Decision procedure for the lexicographic order on strings that reduces in
the kernel (through the character list). -/
def decStrLt (a b : String) : Decidable (a < b) :=
  decidable_of_iff (a.toList < b.toList) String.lt_iff_toList_lt.symm

/-- Model of `aName.localeCompare(bName)` (route.ts line 201) as three-way
lexicographic string comparison.  The page names this route receives are plain
lower-case ASCII (`page-1.png`, ..., `lastpic.png` from the front end), on
which the default-locale collation agrees with code-point order.  (The order
is the usual lexicographic one; the comparison is decided through the
character list so that it evaluates by kernel reduction.) -/
def localeCompare (a b : String) : Int :=
  @ite _ (a < b) (decStrLt a b) (-1) (if a = b then 0 else 1)

/-- The sort comparator at route.ts lines 192-202:
if `aName === 'lastpic.png'` return 1; if `bName === 'lastpic.png'` return -1;
otherwise `aName.localeCompare(bName)`. -/
def imageComparator (a b : ImageDetail) : Int :=
  if a.name = trailerMarker then 1
  else if b.name = trailerMarker then -1
  else localeCompare a.name b.name

/-- Insert `x` into `l` immediately before the first element `y` with
`cmp x y < 0`.  This is the insertion step of the binary insertion sort that
the V8 engine (the runtime of this Next.js route) uses for
`Array.prototype.sort`: the engine binary-searches the already-sorted prefix
for the first position whose element compares greater than the pivot, which
coincides with this linear scan because the comparison predicate is monotone
along the sorted prefix for this comparator. -/
def insertSorted (cmp : α → α → Int) (x : α) : List α → List α
  | [] => [x]
  | y :: ys => if cmp x y < 0 then x :: y :: ys else y :: insertSorted cmp x ys

/-- Model of `Array.prototype.sort(comparator)`: process the array left to
right, inserting each element into the sorted prefix (V8 insertion sort). -/
def jsSort (cmp : α → α → Int) (l : List α) : List α :=
  l.foldl (fun acc x => insertSorted cmp x acc) []

/-- The Page Orderer: `imageDetails.sort(comparator)` at route.ts line 192. -/
def sortImages (l : List ImageDetail) : List ImageDetail :=
  jsSort imageComparator l

/-- Ordering relation guaranteed between an earlier and a later element of the
sorted output: the later one never compares strictly below the earlier one. -/
def GoodPair (cmp : α → α → Int) (a b : α) : Prop := ¬ cmp b a < 0

theorem mem_insertSorted (cmp : α → α → Int) (x : α) :
    ∀ (l : List α) (z : α), z ∈ insertSorted cmp x l → z = x ∨ z ∈ l := by
  intro l
  induction l with
  | nil => intro z hz; simpa [insertSorted] using hz
  | cons y ys ih =>
    intro z hz
    by_cases hc : cmp x y < 0
    · simp only [insertSorted, if_pos hc] at hz
      rcases List.mem_cons.mp hz with h | h
      · exact Or.inl h
      · exact Or.inr h
    · simp only [insertSorted, if_neg hc] at hz
      rcases List.mem_cons.mp hz with h | h
      · exact Or.inr (by simp [h])
      · rcases ih z h with h2 | h2
        · exact Or.inl h2
        · exact Or.inr (List.mem_cons_of_mem y h2)

theorem perm_insertSorted (cmp : α → α → Int) (x : α) :
    ∀ l : List α, List.Perm (insertSorted cmp x l) (x :: l) := by
  intro l
  induction l with
  | nil => simp [insertSorted]
  | cons y ys ih =>
    by_cases hc : cmp x y < 0
    · simp [insertSorted, if_pos hc]
    · simp only [insertSorted, if_neg hc]
      exact (List.Perm.cons y ih).trans (List.Perm.swap x y ys)

theorem insertSorted_pairwise (cmp : α → α → Int)
    (hP1 : ∀ a b, cmp a b < 0 → 0 < cmp b a)
    (hP2 : ∀ x y z, cmp x y < 0 → ¬ cmp z y < 0 → ¬ cmp z x < 0)
    (x : α) :
    ∀ l : List α, l.Pairwise (GoodPair cmp) →
      (insertSorted cmp x l).Pairwise (GoodPair cmp) := by
  intro l
  induction l with
  | nil => intro _; simp [insertSorted, GoodPair]
  | cons y ys ih =>
    intro hl
    rcases List.pairwise_cons.mp hl with ⟨hy, hys⟩
    by_cases hc : cmp x y < 0
    · simp only [insertSorted, if_pos hc]
      refine List.pairwise_cons.mpr ⟨?_, hl⟩
      intro z hz
      rcases List.mem_cons.mp hz with h | h
      · subst h
        have h2 := hP1 x z hc
        unfold GoodPair
        omega
      · exact hP2 x y z hc (hy z h)
    · simp only [insertSorted, if_neg hc]
      refine List.pairwise_cons.mpr ⟨?_, ih hys⟩
      intro z hz
      rcases mem_insertSorted cmp x ys z hz with h | h
      · subst h; exact hc
      · exact hy z h

theorem foldl_insertSorted_pairwise (cmp : α → α → Int)
    (hP1 : ∀ a b, cmp a b < 0 → 0 < cmp b a)
    (hP2 : ∀ x y z, cmp x y < 0 → ¬ cmp z y < 0 → ¬ cmp z x < 0) :
    ∀ (l acc : List α), acc.Pairwise (GoodPair cmp) →
      (l.foldl (fun acc x => insertSorted cmp x acc) acc).Pairwise (GoodPair cmp) := by
  intro l
  induction l with
  | nil => intro acc h; simpa using h
  | cons x xs ih =>
    intro acc h
    simp only [List.foldl_cons]
    exact ih (insertSorted cmp x acc) (insertSorted_pairwise cmp hP1 hP2 x acc h)

theorem jsSort_pairwise (cmp : α → α → Int)
    (hP1 : ∀ a b, cmp a b < 0 → 0 < cmp b a)
    (hP2 : ∀ x y z, cmp x y < 0 → ¬ cmp z y < 0 → ¬ cmp z x < 0)
    (l : List α) :
    (jsSort cmp l).Pairwise (GoodPair cmp) :=
  foldl_insertSorted_pairwise cmp hP1 hP2 l [] (by simp)

theorem insertSorted_eq_append (cmp : α → α → Int) (x : α) :
    ∀ l : List α, (∀ y ∈ l, ¬ cmp x y < 0) → insertSorted cmp x l = l ++ [x] := by
  intro l
  induction l with
  | nil => intro _; simp [insertSorted]
  | cons y ys ih =>
    intro h
    have hy : ¬ cmp x y < 0 := h y (List.mem_cons_self y ys)
    simp only [insertSorted, if_neg hy, List.cons_append, List.cons.injEq, true_and]
    exact ih fun z hz => h z (List.mem_cons_of_mem y hz)

theorem foldl_insertSorted_fixed (cmp : α → α → Int) :
    ∀ (l acc : List α), (acc ++ l).Pairwise (GoodPair cmp) →
      l.foldl (fun acc x => insertSorted cmp x acc) acc = acc ++ l := by
  intro l
  induction l with
  | nil => intro acc _; simp
  | cons x xs ih =>
    intro acc h
    have hsplit : ∀ y ∈ acc, GoodPair cmp y x := by
      intro y hy
      exact (List.pairwise_append.mp h).2.2 y hy x (List.mem_cons_self x xs)
    have hins : insertSorted cmp x acc = acc ++ [x] :=
      insertSorted_eq_append cmp x acc fun y hy => hsplit y hy
    simp only [List.foldl_cons, hins]
    have h2 : ((acc ++ [x]) ++ xs).Pairwise (GoodPair cmp) := by
      simpa using h
    have h3 := ih (acc ++ [x]) h2
    simpa using h3

theorem jsSort_of_pairwise (cmp : α → α → Int) (l : List α)
    (h : l.Pairwise (GoodPair cmp)) : jsSort cmp l = l := by
  have h2 := foldl_insertSorted_fixed cmp l [] (by simpa using h)
  simpa [jsSort] using h2

theorem jsSort_perm (cmp : α → α → Int) :
    ∀ l acc : List α,
      List.Perm (l.foldl (fun acc x => insertSorted cmp x acc) acc) (acc ++ l) := by
  intro l
  induction l with
  | nil => intro acc; simp
  | cons x xs ih =>
    intro acc
    simp only [List.foldl_cons]
    have h1 := ih (insertSorted cmp x acc)
    have h2 : List.Perm (insertSorted cmp x acc ++ xs) ((x :: acc) ++ xs) :=
      List.Perm.append_right xs (perm_insertSorted cmp x acc)
    have h3 : List.Perm ((x :: acc) ++ xs) (acc ++ x :: xs) := by
      have h4 : List.Perm (acc ++ x :: xs) (x :: (acc ++ xs)) := List.perm_middle
      simpa using h4.symm
    exact (h1.trans h2).trans h3

theorem sortImages_perm (l : List ImageDetail) : List.Perm (sortImages l) l := by
  have h := jsSort_perm imageComparator l []
  simpa [sortImages, jsSort] using h

theorem imageComparator_P1 (a b : ImageDetail) :
    imageComparator a b < 0 → 0 < imageComparator b a := by
  intro h
  unfold imageComparator localeCompare at h ⊢
  by_cases ha : a.name = trailerMarker
  · rw [if_pos ha] at h; omega
  rw [if_neg ha] at h
  by_cases hb : b.name = trailerMarker
  · rw [if_pos hb]; omega
  rw [if_neg hb] at h
  rw [if_neg hb, if_neg ha]
  by_cases hab : a.name < b.name
  · have h1 : ¬ b.name < a.name := lt_asymm hab
    have h2 : ¬ b.name = a.name := fun h2 => absurd (h2 ▸ hab) (lt_irrefl _)
    rw [if_neg h1, if_neg h2]
    omega
  · rw [if_neg hab] at h
    by_cases heq : a.name = b.name
    · rw [if_pos heq] at h; omega
    · rw [if_neg heq] at h; omega

theorem imageComparator_P2 (x y z : ImageDetail) :
    imageComparator x y < 0 → ¬ imageComparator z y < 0 → ¬ imageComparator z x < 0 := by
  intro hxy hzy hzx
  unfold imageComparator localeCompare at hxy hzy hzx
  by_cases hx : x.name = trailerMarker
  · rw [if_pos hx] at hxy; omega
  rw [if_neg hx] at hxy
  by_cases hz : z.name = trailerMarker
  · rw [if_pos hz] at hzx; omega
  rw [if_neg hz] at hzx hzy
  rw [if_neg hx] at hzx
  have hzltx : z.name < x.name := by
    by_cases h : z.name < x.name
    · exact h
    · rw [if_neg h] at hzx
      by_cases h2 : z.name = x.name
      · rw [if_pos h2] at hzx; omega
      · rw [if_neg h2] at hzx; omega
  by_cases hy : y.name = trailerMarker
  · rw [if_pos hy] at hzy; omega
  rw [if_neg hy] at hxy hzy
  have hxlty : x.name < y.name := by
    by_cases h : x.name < y.name
    · exact h
    · rw [if_neg h] at hxy
      by_cases h2 : x.name = y.name
      · rw [if_pos h2] at hxy; omega
      · rw [if_neg h2] at hxy; omega
  have hlt : z.name < y.name := lt_trans hzltx hxlty
  rw [if_pos hlt] at hzy
  omega

theorem sortImages_pairwise (l : List ImageDetail) :
    (sortImages l).Pairwise (GoodPair imageComparator) :=
  jsSort_pairwise imageComparator imageComparator_P1 imageComparator_P2 l

/-- C5: the Page Orderer is idempotent on every input, including inputs with
more than one entry named `lastpic.png`; a concrete two-trailer list is also
ordered with its non-trailer entry first and the trailer entries kept in
their relative order. -/
theorem c5_orderer_idempotent :
    (∀ l : List ImageDetail, sortImages (sortImages l) = sortImages l) ∧
    sortImages
      [{ path := "t1", width := 1, height := 1, name := "lastpic.png" },
       { path := "t2", width := 2, height := 2, name := "lastpic.png" },
       { path := "a", width := 3, height := 3, name := "a.png" }] =
      [{ path := "a", width := 3, height := 3, name := "a.png" },
       { path := "t1", width := 1, height := 1, name := "lastpic.png" },
       { path := "t2", width := 2, height := 2, name := "lastpic.png" }] := by
  refine ⟨?_, by decide⟩
  intro l
  exact jsSort_of_pairwise imageComparator (sortImages l) (sortImages_pairwise l)

/-- Page named "a.png", used in the ordering example. -/
def ordA : ImageDetail := { path := "a.png", width := 10, height := 10, name := "a.png" }

/-- Page named "b.png", used in the ordering example. -/
def ordB : ImageDetail := { path := "b.png", width := 10, height := 10, name := "b.png" }

/-- Trailer page, used in the ordering example. -/
def ordTrailer : ImageDetail := { path := "lastpic.png", width := 10, height := 10, name := "lastpic.png" }

/-- First of two distinct entries bearing the trailer name. -/
def dupTrailer1 : ImageDetail := { path := "dir1/lastpic.png", width := 1, height := 1, name := "lastpic.png" }

/-- Second of two distinct entries bearing the trailer name. -/
def dupTrailer2 : ImageDetail := { path := "dir2/lastpic.png", width := 2, height := 2, name := "lastpic.png" }

/-- Counterexample to C4 as stated: with two distinct entries both named
`lastpic.png`, each of them is an entry whose displayName equals the trailer
marker, yet only one can be (and is) the last element of the output, so "any
entry whose displayName equals the marker is the last element" fails for the
other. -/
theorem c4_trailer_last_counterexample :
    sortImages [dupTrailer1, dupTrailer2] = [dupTrailer1, dupTrailer2] ∧
    dupTrailer1 ∈ sortImages [dupTrailer1, dupTrailer2] ∧
    dupTrailer1.name = trailerMarker ∧
    (sortImages [dupTrailer1, dupTrailer2]).getLast? = some dupTrailer2 ∧
    dupTrailer1 ≠ dupTrailer2 := by decide

/-- C4 (amended): provided the trailer name occurs at most once in the input,
the entry named `lastpic.png` is the last element of the output regardless of
its input position; unconditionally, the non-trailer entries of the output
appear in ascending lexical order of displayName, and the concrete example
["b.png", "a.png", "lastpic.png"] sorts to ["a.png", "b.png", "lastpic.png"]. -/
theorem c4_trailer_last_amended :
    (∀ (l : List ImageDetail) (x : ImageDetail),
      (l.countP fun i => i.name == trailerMarker) ≤ 1 →
      x ∈ sortImages l → x.name = trailerMarker →
      (sortImages l).getLast? = some x) ∧
    (∀ l : List ImageDetail,
      (sortImages l).Pairwise fun a b =>
        a.name ≠ trailerMarker → b.name ≠ trailerMarker → a.name ≤ b.name) ∧
    sortImages [ordB, ordA, ordTrailer] = [ordA, ordB, ordTrailer] := by
  refine ⟨?_, ?_, by decide⟩
  · intro l x hcount hmem hname
    have hpw := sortImages_pairwise l
    obtain ⟨s, t, hst⟩ := List.append_of_mem hmem
    have hafter : ∀ z ∈ t, z.name = trailerMarker := by
      intro z hz
      have hxz : GoodPair imageComparator x z := by
        rw [hst] at hpw
        have h2 := (List.pairwise_append.mp hpw).2.1
        exact (List.pairwise_cons.mp h2).1 z hz
      unfold GoodPair imageComparator at hxz
      by_cases h : z.name = trailerMarker
      · exact h
      · rw [if_neg h, if_pos hname] at hxz
        omega
    have hperm := sortImages_perm l
    have hcount2 : ((sortImages l).countP fun i => i.name == trailerMarker) ≤ 1 := by
      rw [hperm.countP_eq]
      exact hcount
    rw [hst, List.countP_append, List.countP_cons] at hcount2
    have hx : (x.name == trailerMarker) = true := by simp [hname]
    rw [if_pos hx] at hcount2
    have ht : t = [] := by
      cases t with
      | nil => rfl
      | cons z zs =>
        have hz := hafter z (List.mem_cons_self z zs)
        rw [List.countP_cons] at hcount2
        have hz2 : (z.name == trailerMarker) = true := by simp [hz]
        rw [if_pos hz2] at hcount2
        omega
    subst ht
    rw [hst]
    exact List.getLast?_concat s
  · intro l
    refine (sortImages_pairwise l).imp ?_
    intro a b hab ha hb
    unfold GoodPair imageComparator localeCompare at hab
    rw [if_neg hb, if_neg ha] at hab
    by_cases h : b.name < a.name
    · rw [if_pos h] at hab
      omega
    · exact le_of_not_lt h

/-- Witness for the amended C4 at the concrete example input. -/
theorem c4_trailer_last_witness :
    (sortImages [ordB, ordA, ordTrailer]).getLast? = some ordTrailer :=
  c4_trailer_last_amended.1 [ordB, ordA, ordTrailer] ordTrailer (by decide) (by decide) (by decide)

/-! The Quality Optimizer (route.ts lines 240-359). -/

/-- Result of one `createStitchedImage(quality)` call (route.ts lines
240-309): re-run the composite at the given quality, measure the written
file, and succeed iff the byte size is within `MAX_FILE_SIZE_BYTES`
(lines 291-304).  The byte size of an encode is a deterministic function
`sizeOf` of the quality (spec 4.4 numeric semantics). -/
structure EncodeResult where
  success : Bool
  quality : Int
  fileSize : Nat
deriving Repr, DecidableEq

/-- Embedding of `createStitchedImage` measured against a byte ceiling:
`{ success: fileSize <= maxBytes, quality, fileSize }` (route.ts lines
294-304). -/
def createStitchedImage (sizeOf : Int → Nat) (maxBytes : Nat) (q : Int) : EncodeResult :=
  { success := decide (sizeOf q ≤ maxBytes), quality := q, fileSize := sizeOf q }

/-- State carried by the binary-search `while` loop of `findOptimalQuality`
(route.ts lines 326-342): the confirmed `bestQuality`, its `bestFileSize`,
the final value of `high`, and the qualities actually encoded inside the
loop, in order (instrumentation used to state attempt-count properties). -/
structure SearchState where
  best : Int
  bestSize : Nat
  high : Int
  attempts : List Int
deriving Repr, DecidableEq

/-- Record one performed encode attempt in front of a loop state. -/
def pushAttempt (q : Int) (r : SearchState) : SearchState :=
  { r with attempts := q :: r.attempts }

/-- The `while (low <= high)` loop of `findOptimalQuality` (route.ts lines
326-342): `mid = Math.floor((low + high) / 2)`; stop if `mid === bestQuality`
(line 329); encode at `mid` (the success test is
`(createStitchedImage sizeOf maxBytes mid).success`, i.e.
`sizeOf mid ≤ maxBytes`); on success set `bestQuality = mid`,
`bestFileSize = result.fileSize`, `low = mid + 1`; on failure
`high = mid - 1`.  The loop is driven by a fuel argument for structural
recursion; every iteration strictly shrinks the closed window `[low, high]`,
so the fuel `(high + 1 - low).toNat` supplied by `findOptimalQuality` is
never exhausted. -/
def searchLoop (sizeOf : Int → Nat) (maxBytes : Nat) :
    Nat → Int → Nat → Int → Int → SearchState
  | 0, best, bestSize, _, high => { best := best, bestSize := bestSize, high := high, attempts := [] }
  | fuel + 1, best, bestSize, low, high =>
    if low ≤ high then
      if Int.fdiv (low + high) 2 = best then
        { best := best, bestSize := bestSize, high := high, attempts := [] }
      else if sizeOf (Int.fdiv (low + high) 2) ≤ maxBytes then
        pushAttempt (Int.fdiv (low + high) 2)
          (searchLoop sizeOf maxBytes fuel (Int.fdiv (low + high) 2)
            (sizeOf (Int.fdiv (low + high) 2)) (Int.fdiv (low + high) 2 + 1) high)
      else
        pushAttempt (Int.fdiv (low + high) 2)
          (searchLoop sizeOf maxBytes fuel best bestSize low (Int.fdiv (low + high) 2 - 1))
    else { best := best, bestSize := bestSize, high := high, attempts := [] }

/-- What `findOptimalQuality` returns (route.ts lines 322, 352, 358), plus
the instrumented list of all qualities that were encoded, in order. -/
structure OptResult where
  quality : Int
  fileSize : Nat
  attempts : List Int
deriving Repr, DecidableEq

/-- The search-loop state produced inside `findOptimalQuality`, with the
route's initial values `low = bestQuality = MIN_QUALITY` (generalised to
`minQ`), `bestFileSize = 0`, `high = quality` (generalised to `q0`). -/
def optimizerSearch (sizeOf : Int → Nat) (maxBytes : Nat) (minQ q0 : Int) : SearchState :=
  searchLoop sizeOf maxBytes (q0 + 1 - minQ).toNat minQ 0 minQ q0

/-- Embedding of `findOptimalQuality` (route.ts lines 312-359): first encode
at `high = q0` and return immediately on success (lines 318-323); otherwise
run the binary-search loop; then, if `bestQuality >= MIN_QUALITY` (line 345),
perform one more (discarded) encode at `bestQuality` when
`bestQuality !== high` (lines 347-349) and return
`{ quality: bestQuality, fileSize: bestFileSize }` (line 352); the final
fallback (lines 355-358) returns the minimum-quality encode and its size. -/
def findOptimalQuality (sizeOf : Int → Nat) (maxBytes : Nat) (minQ q0 : Int) : OptResult :=
  if sizeOf q0 ≤ maxBytes then
    { quality := q0, fileSize := sizeOf q0, attempts := [q0] }
  else
    if minQ ≤ (optimizerSearch sizeOf maxBytes minQ q0).best then
      if (optimizerSearch sizeOf maxBytes minQ q0).best ≠ (optimizerSearch sizeOf maxBytes minQ q0).high then
        { quality := (optimizerSearch sizeOf maxBytes minQ q0).best
          fileSize := (optimizerSearch sizeOf maxBytes minQ q0).bestSize
          attempts := q0 :: (optimizerSearch sizeOf maxBytes minQ q0).attempts ++
            [(optimizerSearch sizeOf maxBytes minQ q0).best] }
      else
        { quality := (optimizerSearch sizeOf maxBytes minQ q0).best
          fileSize := (optimizerSearch sizeOf maxBytes minQ q0).bestSize
          attempts := q0 :: (optimizerSearch sizeOf maxBytes minQ q0).attempts }
    else
      { quality := minQ, fileSize := sizeOf minQ
        attempts := q0 :: (optimizerSearch sizeOf maxBytes minQ q0).attempts ++ [minQ] }

/-! Basic lemmas about the loop. -/

theorem searchLoop_succ (sizeOf : Int → Nat) (maxBytes : Nat) (fuel : Nat)
    (best : Int) (bestSize : Nat) (low high : Int) :
    searchLoop sizeOf maxBytes (fuel + 1) best bestSize low high =
      if low ≤ high then
        if Int.fdiv (low + high) 2 = best then
          { best := best, bestSize := bestSize, high := high, attempts := [] }
        else if sizeOf (Int.fdiv (low + high) 2) ≤ maxBytes then
          pushAttempt (Int.fdiv (low + high) 2)
            (searchLoop sizeOf maxBytes fuel (Int.fdiv (low + high) 2)
              (sizeOf (Int.fdiv (low + high) 2)) (Int.fdiv (low + high) 2 + 1) high)
        else
          pushAttempt (Int.fdiv (low + high) 2)
            (searchLoop sizeOf maxBytes fuel best bestSize low (Int.fdiv (low + high) 2 - 1))
      else { best := best, bestSize := bestSize, high := high, attempts := [] } := rfl

theorem searchLoop_empty (sizeOf : Int → Nat) (maxBytes : Nat) (fuel : Nat)
    (best : Int) (bestSize : Nat) (low high : Int) (h : ¬ low ≤ high) :
    searchLoop sizeOf maxBytes fuel best bestSize low high =
      { best := best, bestSize := bestSize, high := high, attempts := [] } := by
  cases fuel with
  | zero => rfl
  | succ fuel => rw [searchLoop_succ, if_neg h]

theorem mid_bounds (low high : Int) (h : low ≤ high) :
    low ≤ Int.fdiv (low + high) 2 ∧ Int.fdiv (low + high) 2 ≤ high := by
  have hb := fdiv_two_bounds (low + high)
  omega

theorem pushAttempt_attempts (q : Int) (r : SearchState) :
    (pushAttempt q r).attempts = q :: r.attempts := rfl

theorem pushAttempt_best (q : Int) (r : SearchState) :
    (pushAttempt q r).best = r.best := rfl

theorem pushAttempt_bestSize (q : Int) (r : SearchState) :
    (pushAttempt q r).bestSize = r.bestSize := rfl

theorem pushAttempt_high (q : Int) (r : SearchState) :
    (pushAttempt q r).high = r.high := rfl

/-- Every quality attempted inside the loop lies in the current window, and
no quality is ever attempted twice: each attempt at `mid` shrinks the window
to a part that excludes `mid`. -/
theorem searchLoop_attempts_nodup (sizeOf : Int → Nat) (maxBytes : Nat) :
    ∀ (fuel : Nat) (best : Int) (bestSize : Nat) (low high : Int),
      (∀ a ∈ (searchLoop sizeOf maxBytes fuel best bestSize low high).attempts,
        low ≤ a ∧ a ≤ high) ∧
      (searchLoop sizeOf maxBytes fuel best bestSize low high).attempts.Nodup := by
  intro fuel
  induction fuel with
  | zero =>
    intro best bestSize low high
    constructor
    · intro a ha; simp [searchLoop] at ha
    · simp [searchLoop]
  | succ fuel ih =>
    intro best bestSize low high
    by_cases h : low ≤ high
    · rw [searchLoop_succ, if_pos h]
      have hmb := mid_bounds low high h
      by_cases h2 : Int.fdiv (low + high) 2 = best
      · rw [if_pos h2]
        constructor
        · intro a ha; simp at ha
        · simp
      · rw [if_neg h2]
        by_cases h3 : sizeOf (Int.fdiv (low + high) 2) ≤ maxBytes
        · rw [if_pos h3]
          obtain ⟨ihb, ihn⟩ := ih (Int.fdiv (low + high) 2)
            (sizeOf (Int.fdiv (low + high) 2)) (Int.fdiv (low + high) 2 + 1) high
          rw [pushAttempt_attempts]
          constructor
          · intro a ha
            rcases List.mem_cons.mp ha with h4 | h4
            · subst h4; omega
            · have h5 := ihb a h4; omega
          · refine List.nodup_cons.mpr ⟨?_, ihn⟩
            intro hmem
            have h5 := ihb _ hmem
            omega
        · rw [if_neg h3]
          obtain ⟨ihb, ihn⟩ := ih best bestSize low (Int.fdiv (low + high) 2 - 1)
          rw [pushAttempt_attempts]
          constructor
          · intro a ha
            rcases List.mem_cons.mp ha with h4 | h4
            · subst h4; omega
            · have h5 := ihb a h4; omega
          · refine List.nodup_cons.mpr ⟨?_, ihn⟩
            intro hmem
            have h5 := ihb _ hmem
            omega
    · rw [searchLoop_empty sizeOf maxBytes _ best bestSize low high h]
      constructor
      · intro a ha; simp at ha
      · simp

/-- The confirmed best quality never decreases below its initial value when
the loop starts with `best ≤ low` (as it does in the route, where both are
`MIN_QUALITY`).  Consequently the route's post-loop test
`bestQuality >= MIN_QUALITY` (line 345) is always true and the fallback at
lines 355-358 is unreachable. -/
theorem searchLoop_best_le (sizeOf : Int → Nat) (maxBytes : Nat) :
    ∀ (fuel : Nat) (best : Int) (bestSize : Nat) (low high : Int), best ≤ low →
      best ≤ (searchLoop sizeOf maxBytes fuel best bestSize low high).best := by
  intro fuel
  induction fuel with
  | zero => intro best bestSize low high _; simp [searchLoop]
  | succ fuel ih =>
    intro best bestSize low high hbl
    by_cases h : low ≤ high
    · rw [searchLoop_succ, if_pos h]
      have hmb := mid_bounds low high h
      by_cases h2 : Int.fdiv (low + high) 2 = best
      · rw [if_pos h2]
      · rw [if_neg h2]
        by_cases h3 : sizeOf (Int.fdiv (low + high) 2) ≤ maxBytes
        · rw [if_pos h3, pushAttempt_best]
          have h4 := ih (Int.fdiv (low + high) 2) (sizeOf (Int.fdiv (low + high) 2))
            (Int.fdiv (low + high) 2 + 1) high (by omega)
          omega
        · rw [if_neg h3, pushAttempt_best]
          exact ih best bestSize low (Int.fdiv (low + high) 2 - 1) hbl
    · rw [searchLoop_empty sizeOf maxBytes _ best bestSize low high h]

theorem log2_step (n : Nat) (h : 2 ≤ n) : Nat.log2 n = Nat.log2 (n / 2) + 1 := by
  rw [Nat.log2]
  simp [h]

/-- The loop performs a logarithmic number of encode attempts: halving the
window each iteration bounds the attempt count by log2 of the window size
plus one. -/
theorem searchLoop_length_le (sizeOf : Int → Nat) (maxBytes : Nat) :
    ∀ (n fuel : Nat) (best : Int) (bestSize : Nat) (low high : Int),
      (high + 1 - low).toNat ≤ n →
      (searchLoop sizeOf maxBytes fuel best bestSize low high).attempts.length ≤
        Nat.log2 n + 1 := by
  intro n
  induction n using Nat.strong_induction_on with
  | _ n ih =>
    intro fuel best bestSize low high hn
    cases fuel with
    | zero => simp [searchLoop]
    | succ fuel =>
      by_cases h : low ≤ high
      · rw [searchLoop_succ, if_pos h]
        have hb := fdiv_two_bounds (low + high)
        by_cases h2 : Int.fdiv (low + high) 2 = best
        · rw [if_pos h2]; simp
        · rw [if_neg h2]
          by_cases h3 : sizeOf (Int.fdiv (low + high) 2) ≤ maxBytes
          · rw [if_pos h3, pushAttempt_attempts]
            by_cases h4 : Int.fdiv (low + high) 2 + 1 ≤ high
            · have hsub : (high + 1 - (Int.fdiv (low + high) 2 + 1)).toNat ≤ n / 2 := by
                omega
              have hpos : 1 ≤ (high + 1 - (Int.fdiv (low + high) 2 + 1)).toNat := by
                omega
              have hn2 : 2 ≤ n := by omega
              have hrec := ih (n / 2) (by omega) fuel (Int.fdiv (low + high) 2)
                (sizeOf (Int.fdiv (low + high) 2)) (Int.fdiv (low + high) 2 + 1) high hsub
              rw [log2_step n hn2]
              simp only [List.length_cons]
              omega
            · rw [searchLoop_empty sizeOf maxBytes fuel _ _ _ high h4]
              simp
          · rw [if_neg h3, pushAttempt_attempts]
            by_cases h4 : low ≤ Int.fdiv (low + high) 2 - 1
            · have hsub : ((Int.fdiv (low + high) 2 - 1) + 1 - low).toNat ≤ n / 2 := by
                omega
              have hpos : 1 ≤ ((Int.fdiv (low + high) 2 - 1) + 1 - low).toNat := by
                omega
              have hn2 : 2 ≤ n := by omega
              have hrec := ih (n / 2) (by omega) fuel best bestSize low
                (Int.fdiv (low + high) 2 - 1) hsub
              rw [log2_step n hn2]
              simp only [List.length_cons]
              omega
            · rw [searchLoop_empty sizeOf maxBytes fuel best bestSize low _ h4]
              simp
      · rw [searchLoop_empty sizeOf maxBytes _ best bestSize low high h]
        simp

/-- Invariant after a success has been confirmed: once `bestQuality` holds a
quality that encoded within the ceiling and `low = bestQuality + 1`, the loop
ends with `high = bestQuality`, the recorded size is the size of the best
encode, and the best only improves. -/
theorem searchLoop_confirmed (sizeOf : Int → Nat) (maxBytes : Nat) :
    ∀ (fuel : Nat) (best low high : Int),
      (high + 1 - low).toNat ≤ fuel →
      low = best + 1 → best ≤ high → sizeOf best ≤ maxBytes →
      ((searchLoop sizeOf maxBytes fuel best (sizeOf best) low high).best =
          (searchLoop sizeOf maxBytes fuel best (sizeOf best) low high).high ∧
        (searchLoop sizeOf maxBytes fuel best (sizeOf best) low high).bestSize =
          sizeOf ((searchLoop sizeOf maxBytes fuel best (sizeOf best) low high).best) ∧
        sizeOf ((searchLoop sizeOf maxBytes fuel best (sizeOf best) low high).best) ≤ maxBytes ∧
        best ≤ (searchLoop sizeOf maxBytes fuel best (sizeOf best) low high).best) := by
  intro fuel
  induction fuel with
  | zero =>
    intro best low high hfuel hlow hbh hsz
    have hhb : high = best := by omega
    subst hhb
    exact ⟨rfl, rfl, hsz, le_refl _⟩
  | succ fuel ih =>
    intro best low high hfuel hlow hbh hsz
    by_cases h : low ≤ high
    · rw [searchLoop_succ, if_pos h]
      have hb := fdiv_two_bounds (low + high)
      have h2 : ¬ (Int.fdiv (low + high) 2 = best) := by omega
      rw [if_neg h2]
      by_cases h3 : sizeOf (Int.fdiv (low + high) 2) ≤ maxBytes
      · rw [if_pos h3]
        have hrec := ih (Int.fdiv (low + high) 2) (Int.fdiv (low + high) 2 + 1) high
          (by omega) rfl (by omega) h3
        rw [pushAttempt_best, pushAttempt_bestSize, pushAttempt_high]
        refine ⟨hrec.1, hrec.2.1, hrec.2.2.1, ?_⟩
        have h4 := hrec.2.2.2
        omega
      · rw [if_neg h3]
        have hrec := ih best low (Int.fdiv (low + high) 2 - 1)
          (by omega) hlow (by omega) hsz
        rw [pushAttempt_best, pushAttempt_bestSize, pushAttempt_high]
        exact hrec
    · rw [searchLoop_empty sizeOf maxBytes _ best (sizeOf best) low high h]
      have hhb : high = best := by omega
      subst hhb
      exact ⟨rfl, rfl, hsz, le_refl _⟩

/-- If any quality attempted inside the loop succeeded, then the loop ends
with `bestQuality = high` (so the route's post-loop re-encode guard
`bestQuality !== high` is false), the recorded byte size is the size of the
best encode, that size is within the ceiling, and `low ≤ bestQuality`. -/
theorem searchLoop_success_confirms (sizeOf : Int → Nat) (maxBytes : Nat) :
    ∀ (fuel : Nat) (best : Int) (bestSize : Nat) (low high : Int),
      (high + 1 - low).toNat ≤ fuel → best ≤ low →
      (∃ a ∈ (searchLoop sizeOf maxBytes fuel best bestSize low high).attempts,
        sizeOf a ≤ maxBytes) →
      ((searchLoop sizeOf maxBytes fuel best bestSize low high).best =
          (searchLoop sizeOf maxBytes fuel best bestSize low high).high ∧
        (searchLoop sizeOf maxBytes fuel best bestSize low high).bestSize =
          sizeOf ((searchLoop sizeOf maxBytes fuel best bestSize low high).best) ∧
        sizeOf ((searchLoop sizeOf maxBytes fuel best bestSize low high).best) ≤ maxBytes ∧
        low ≤ (searchLoop sizeOf maxBytes fuel best bestSize low high).best) := by
  intro fuel
  induction fuel with
  | zero =>
    intro best bestSize low high _ _ hex
    simp [searchLoop] at hex
  | succ fuel ih =>
    intro best bestSize low high hfuel hbl hex
    by_cases h : low ≤ high
    · rw [searchLoop_succ, if_pos h] at hex ⊢
      have hb := fdiv_two_bounds (low + high)
      by_cases h2 : Int.fdiv (low + high) 2 = best
      · rw [if_pos h2] at hex
        simp at hex
      · rw [if_neg h2] at hex ⊢
        by_cases h3 : sizeOf (Int.fdiv (low + high) 2) ≤ maxBytes
        · rw [if_pos h3]
          have hrec := searchLoop_confirmed sizeOf maxBytes fuel (Int.fdiv (low + high) 2)
            (Int.fdiv (low + high) 2 + 1) high (by omega) rfl (by omega) h3
          rw [pushAttempt_best, pushAttempt_bestSize, pushAttempt_high]
          refine ⟨hrec.1, hrec.2.1, hrec.2.2.1, ?_⟩
          have h4 := hrec.2.2.2
          omega
        · rw [if_neg h3] at hex ⊢
          rw [pushAttempt_attempts] at hex
          have hex2 : ∃ a ∈ (searchLoop sizeOf maxBytes fuel best bestSize low
              (Int.fdiv (low + high) 2 - 1)).attempts, sizeOf a ≤ maxBytes := by
            obtain ⟨a, ha, hsa⟩ := hex
            rcases List.mem_cons.mp ha with h4 | h4
            · subst h4; exact absurd hsa h3
            · exact ⟨a, h4, hsa⟩
          have hrec := ih best bestSize low (Int.fdiv (low + high) 2 - 1)
            (by omega) hbl hex2
          rw [pushAttempt_best, pushAttempt_bestSize, pushAttempt_high]
          exact hrec
    · rw [searchLoop_empty sizeOf maxBytes _ best bestSize low high h] at hex
      simp at hex

/-- Restatement of `searchLoop_success_confirms` for the loop state
produced inside `findOptimalQuality`. -/
theorem optimizerSearch_success_confirms (sizeOf : Int → Nat) (maxBytes : Nat)
    (minQ q0 : Int)
    (hs : ∃ a ∈ (optimizerSearch sizeOf maxBytes minQ q0).attempts, sizeOf a ≤ maxBytes) :
    (optimizerSearch sizeOf maxBytes minQ q0).best =
        (optimizerSearch sizeOf maxBytes minQ q0).high ∧
      (optimizerSearch sizeOf maxBytes minQ q0).bestSize =
        sizeOf ((optimizerSearch sizeOf maxBytes minQ q0).best) ∧
      sizeOf ((optimizerSearch sizeOf maxBytes minQ q0).best) ≤ maxBytes ∧
      minQ ≤ (optimizerSearch sizeOf maxBytes minQ q0).best :=
  searchLoop_success_confirms sizeOf maxBytes (q0 + 1 - minQ).toNat minQ 0 minQ q0
    (le_refl _) (le_refl _) hs

/-! Claim theorems for the Quality Optimizer. -/

/-- Encoder whose output always fits the ceiling (1 MiB at every quality). -/
def smallEncoder : Int → Nat := fun _ => 1048576

/-- Encoder whose output never fits the 4 MiB ceiling (5 MiB everywhere). -/
def oversizedEncoder : Int → Nat := fun _ => 5242880

/-- Encoder for the binary-search scenario: qualities up to 70 produce 3 MiB
(within the 4 MiB ceiling), higher qualities produce 5 MiB (oversized). -/
def stepEncoder : Int → Nat := fun q => if q ≤ 70 then 3145728 else 5242880

/-- C6: when the encode at the starting quality q0 already fits the ceiling,
the Optimizer performs exactly one encode attempt and returns immediately
with quality q0 and that attempt's byte size; no binary search happens. -/
theorem c6_first_attempt_short_circuit (sizeOf : Int → Nat) (maxBytes : Nat)
    (minQ q0 : Int) (h : sizeOf q0 ≤ maxBytes) :
    findOptimalQuality sizeOf maxBytes minQ q0 =
      { quality := q0, fileSize := sizeOf q0, attempts := [q0] } ∧
    (findOptimalQuality sizeOf maxBytes minQ q0).attempts.length = 1 := by
  constructor
  · unfold findOptimalQuality
    rw [if_pos h]
  · unfold findOptimalQuality
    rw [if_pos h]
    rfl

/-- Witness for C6 at the route's constants with an encoder that fits. -/
theorem c6_first_attempt_short_circuit_witness :
    findOptimalQuality smallEncoder MAX_FILE_SIZE_BYTES MIN_QUALITY DEFAULT_QUALITY =
      { quality := DEFAULT_QUALITY, fileSize := smallEncoder DEFAULT_QUALITY
        attempts := [DEFAULT_QUALITY] } ∧
    (findOptimalQuality smallEncoder MAX_FILE_SIZE_BYTES MIN_QUALITY
      DEFAULT_QUALITY).attempts.length = 1 :=
  c6_first_attempt_short_circuit smallEncoder MAX_FILE_SIZE_BYTES MIN_QUALITY
    DEFAULT_QUALITY (by decide)

/-- C7: for every starting quality at least the floor and every deterministic
size function, the search terminates with no quality attempted twice inside
the loop (in particular the confirmed best is never re-attempted: the loop
stops when mid reaches it), and the total number of encodes is bounded by
log2 of the window size plus a constant (initial attempt, loop attempts, and
at most one extra post-loop encode). -/
theorem c7_search_terminates_log (sizeOf : Int → Nat) (maxBytes : Nat)
    (minQ q0 : Int) (h : minQ ≤ q0) :
    (optimizerSearch sizeOf maxBytes minQ q0).attempts.Nodup ∧
    (findOptimalQuality sizeOf maxBytes minQ q0).attempts.length ≤
      Nat.log2 (q0 + 1 - minQ).toNat + 3 := by
  constructor
  · exact (searchLoop_attempts_nodup sizeOf maxBytes (q0 + 1 - minQ).toNat minQ 0 minQ q0).2
  · have hlen : (optimizerSearch sizeOf maxBytes minQ q0).attempts.length ≤
        Nat.log2 (q0 + 1 - minQ).toNat + 1 :=
      searchLoop_length_le sizeOf maxBytes (q0 + 1 - minQ).toNat (q0 + 1 - minQ).toNat
        minQ 0 minQ q0 (le_refl _)
    unfold findOptimalQuality
    by_cases h0 : sizeOf q0 ≤ maxBytes
    · rw [if_pos h0]
      simp
    · rw [if_neg h0]
      by_cases h1 : minQ ≤ (optimizerSearch sizeOf maxBytes minQ q0).best
      · rw [if_pos h1]
        by_cases h2 : (optimizerSearch sizeOf maxBytes minQ q0).best ≠
            (optimizerSearch sizeOf maxBytes minQ q0).high
        · rw [if_pos h2]
          simp only [List.length_cons, List.length_append, List.length_singleton, List.length_nil]
          omega
        · rw [if_neg h2]
          simp only [List.length_cons]
          omega
      · rw [if_neg h1]
        simp only [List.length_cons, List.length_append, List.length_singleton, List.length_nil]
        omega

/-- Witness for C7 at the route's constants. -/
theorem c7_search_terminates_log_witness :
    (optimizerSearch stepEncoder MAX_FILE_SIZE_BYTES MIN_QUALITY DEFAULT_QUALITY).attempts.Nodup ∧
    (findOptimalQuality stepEncoder MAX_FILE_SIZE_BYTES MIN_QUALITY
      DEFAULT_QUALITY).attempts.length ≤
      Nat.log2 (DEFAULT_QUALITY + 1 - MIN_QUALITY).toNat + 3 :=
  c7_search_terminates_log stepEncoder MAX_FILE_SIZE_BYTES MIN_QUALITY DEFAULT_QUALITY
    (by decide)

/-- Counterexample to C8 as stated: with `stepEncoder`, quality 70 succeeds in
the search interval, the last encode attempt performed during the search is
71 (not the confirmed best 70), and yet the Optimizer performs no additional
post-search encode at the best quality: its complete attempt list is exactly
the initial attempt followed by the loop attempts, with 70 encoded once. -/
theorem c8_reencode_counterexample :
    (findOptimalQuality stepEncoder MAX_FILE_SIZE_BYTES MIN_QUALITY DEFAULT_QUALITY).attempts =
      DEFAULT_QUALITY ::
        (optimizerSearch stepEncoder MAX_FILE_SIZE_BYTES MIN_QUALITY DEFAULT_QUALITY).attempts ∧
    (optimizerSearch stepEncoder MAX_FILE_SIZE_BYTES MIN_QUALITY DEFAULT_QUALITY).attempts =
      [70, 75, 72, 71] ∧
    (optimizerSearch stepEncoder MAX_FILE_SIZE_BYTES MIN_QUALITY
      DEFAULT_QUALITY).attempts.getLast? = some 71 ∧
    (findOptimalQuality stepEncoder MAX_FILE_SIZE_BYTES MIN_QUALITY DEFAULT_QUALITY).quality = 70 ∧
    stepEncoder 70 ≤ MAX_FILE_SIZE_BYTES ∧
    (71 : Int) ≠ 70 ∧
    List.count 70
      (findOptimalQuality stepEncoder MAX_FILE_SIZE_BYTES MIN_QUALITY
        DEFAULT_QUALITY).attempts = 1 := by
  decide

/-- C8 (amended): after the loop, whenever some quality attempted in the
search succeeded, the loop has ended with the confirmed best equal to the
final `high` bound, so the Optimizer performs no additional encode (the
re-encode guard `bestQuality !== high` never fires after a success) and
returns the best quality with its recorded byte size, which is the size of
the best encode and is within the ceiling. -/
theorem c8_no_reencode_after_success (sizeOf : Int → Nat) (maxBytes : Nat)
    (minQ q0 : Int) (h0 : ¬ sizeOf q0 ≤ maxBytes)
    (hs : ∃ a ∈ (optimizerSearch sizeOf maxBytes minQ q0).attempts, sizeOf a ≤ maxBytes) :
    (optimizerSearch sizeOf maxBytes minQ q0).best =
      (optimizerSearch sizeOf maxBytes minQ q0).high ∧
    sizeOf ((optimizerSearch sizeOf maxBytes minQ q0).best) ≤ maxBytes ∧
    findOptimalQuality sizeOf maxBytes minQ q0 =
      { quality := (optimizerSearch sizeOf maxBytes minQ q0).best
        fileSize := sizeOf ((optimizerSearch sizeOf maxBytes minQ q0).best)
        attempts := q0 ::
          (optimizerSearch sizeOf maxBytes minQ q0).attempts } := by
  obtain ⟨h1, h2, h3, h4⟩ := optimizerSearch_success_confirms sizeOf maxBytes minQ q0 hs
  refine ⟨h1, h3, ?_⟩
  unfold findOptimalQuality
  rw [if_neg h0, if_pos h4, if_neg (by simp [h1])]
  rw [h2]

/-- Witness for the amended C8 at the concrete step encoder. -/
theorem c8_no_reencode_after_success_witness :
    (optimizerSearch stepEncoder MAX_FILE_SIZE_BYTES MIN_QUALITY DEFAULT_QUALITY).best =
      (optimizerSearch stepEncoder MAX_FILE_SIZE_BYTES MIN_QUALITY DEFAULT_QUALITY).high ∧
    stepEncoder
        ((optimizerSearch stepEncoder MAX_FILE_SIZE_BYTES MIN_QUALITY DEFAULT_QUALITY).best) ≤
      MAX_FILE_SIZE_BYTES ∧
    findOptimalQuality stepEncoder MAX_FILE_SIZE_BYTES MIN_QUALITY DEFAULT_QUALITY =
      { quality := (optimizerSearch stepEncoder MAX_FILE_SIZE_BYTES MIN_QUALITY
          DEFAULT_QUALITY).best
        fileSize := stepEncoder ((optimizerSearch stepEncoder MAX_FILE_SIZE_BYTES MIN_QUALITY
          DEFAULT_QUALITY).best)
        attempts := DEFAULT_QUALITY ::
          (optimizerSearch stepEncoder MAX_FILE_SIZE_BYTES MIN_QUALITY
            DEFAULT_QUALITY).attempts } :=
  c8_no_reencode_after_success stepEncoder MAX_FILE_SIZE_BYTES MIN_QUALITY DEFAULT_QUALITY
    (by decide) ⟨70, by decide, by decide⟩

/-- C1 is a code bug: with an input whose encodes never fit the ceiling
(5 MiB at every quality against the 4 MiB limit, starting quality 80, floor
60), the route returns quality 60 but byte size 0 - the untouched initial
`bestFileSize` - and never encodes at the minimum quality at all (60 is not
among the attempted qualities [80, 70, 64, 61]): the loop breaks at
`mid = bestQuality = 60` before encoding, and since `bestQuality === high`
no re-encode happens.  The spec's fallback (encode at exactly Qmin, return
its actual size) exists at route.ts lines 355-358 but is dead code, because
`bestQuality` is initialised to `MIN_QUALITY` and never decreases, so the
guard `bestQuality >= MIN_QUALITY` at line 345 is always true (final
conjunct, proved for every encoder and configuration). -/
theorem c1_minquality_fallback_dead :
    findOptimalQuality oversizedEncoder MAX_FILE_SIZE_BYTES MIN_QUALITY DEFAULT_QUALITY =
      { quality := 60, fileSize := 0, attempts := [80, 70, 64, 61] } ∧
    ¬ (60 : Int) ∈ [(80 : Int), 70, 64, 61] ∧
    oversizedEncoder 60 = 5242880 ∧
    (∀ (s : Int → Nat) (mb : Nat) (minQ q0 : Int),
      minQ ≤ (optimizerSearch s mb minQ q0).best) := by
  refine ⟨by decide, by decide, rfl, ?_⟩
  intro s mb minQ q0
  exact searchLoop_best_le s mb (q0 + 1 - minQ).toNat minQ 0 minQ q0 (le_refl _)

/-! The ImageSet Loader (route.ts lines 173-189). -/

/-- Result of sharp metadata inspection for a stored image, as consumed at
route.ts line 177: `sharp(imagePath).metadata()` reports optional pixel
dimensions. -/
structure SharpMetadata where
  width : Option Nat
  height : Option Nat
deriving Repr, DecidableEq

/-- JavaScript `v || 0` applied to an optional number (route.ts lines
180-181): an absent value is falsy and yields 0; a present zero is also
falsy and yields 0; any other number passes through. -/
def jsOrZero : Option Nat → Nat
  | none => 0
  | some n => if n = 0 then 0 else n

/-- Model of node's `path.basename` (route.ts line 182): the component after
the final path separator. -/
def basename (p : String) : String :=
  (p.splitOn "/").getLastD p

/-- The per-image loader body at route.ts lines 175-188: on successful
metadata inspection produce the detail record, with missing dimensions
defaulting to 0 via `metadata.width || 0` and `metadata.height || 0`; a
sharp failure is rethrown (line 186) and fails the whole batch. -/
def loadImageDetail (imagePath : String) (meta : Except String SharpMetadata) :
    Except String ImageDetail :=
  match meta with
  | Except.ok m =>
      Except.ok
        { path := imagePath
          width := jsOrZero m.width
          height := jsOrZero m.height
          name := basename imagePath }
  | Except.error e => Except.error ("Failed to process image: " ++ e)

/-- C10: when metadata inspection succeeds but reports no width or no
height, the loader does not fail - it records the page with width 0 and/or
height 0 - and such a page contributes 0 to the summed canvas height and 0
to the maximum-width computation (leaving the maximum of the remaining
pages unchanged); the width > 0, height > 0 precondition is not enforced. -/
theorem c10_loader_accepts_missing_dimensions :
    (∀ (p : String) (m : SharpMetadata),
      loadImageDetail p (Except.ok m) =
        Except.ok
          { path := p, width := jsOrZero m.width, height := jsOrZero m.height
            name := basename p } ∧
      (m.width = none → jsOrZero m.width = 0) ∧
      (m.height = none → jsOrZero m.height = 0)) ∧
    (∀ (d : ImageDetail) (rest : List ImageDetail), d.height = 0 →
      totalHeight (d :: rest) = totalHeight rest) ∧
    (∀ (d : ImageDetail) (rest : List ImageDetail), d.width = 0 → rest ≠ [] →
      maxWidth (d :: rest) = maxWidth rest) := by
  refine ⟨?_, ?_, ?_⟩
  · intro p m
    refine ⟨rfl, ?_, ?_⟩
    · intro hw; rw [hw]; rfl
    · intro hh; rw [hh]; rfl
  · intro d rest hd
    simp only [totalHeight, List.foldl_cons, hd, Nat.add_zero]
  · intro d rest hd hne
    cases rest with
    | nil => exact absurd rfl hne
    | cons i rest2 =>
      simp only [maxWidth, List.foldl_cons, hd, Nat.zero_max]

/-- Page with no recorded dimensions, as the loader produces it. -/
def zeroPage : ImageDetail := { path := "z.png", width := 0, height := 0, name := "z.png" }

/-- Witness for C10: a metadata record with both dimensions missing loads
successfully as a 0-by-0 page, and prepending that page to the example set
changes neither the summed height nor the maximum width. -/
theorem c10_loader_accepts_missing_dimensions_witness :
    loadImageDetail "z.png" (Except.ok { width := none, height := none }) =
      Except.ok
        { path := "z.png", width := jsOrZero none, height := jsOrZero none
          name := basename "z.png" } ∧
    totalHeight (zeroPage :: exPages) = totalHeight exPages ∧
    maxWidth (zeroPage :: exPages) = maxWidth exPages :=
  ⟨(c10_loader_accepts_missing_dimensions.1 "z.png" { width := none, height := none }).1,
   c10_loader_accepts_missing_dimensions.2.1 zeroPage exPages rfl,
   c10_loader_accepts_missing_dimensions.2.2 zeroPage exPages rfl (by decide)⟩

/-! The render step of the Canvas Compositor. -/

/-- CompositionError message of the modelled render step. -/
def compositionError : String := "CompositionError: placement outside canvas bounds"

/-- Actual pixel content of a stored page as found at render time, paired
with its computed placement; the actual dimensions may diverge from the
metadata recorded for the page (spec 4.3). -/
structure ActualImage where
  placement : CompositeImage
  actualWidth : Nat
  actualHeight : Nat
deriving Repr, DecidableEq

/-- Whether a page would fall outside the w-by-h canvas at its placement. -/
def outOfBounds (w h : Int) (a : ActualImage) : Bool :=
  decide (a.placement.left < 0) || decide (a.placement.top < 0) ||
  decide (w < a.placement.left + (a.actualWidth : Int)) ||
  decide (h < a.placement.top + (a.actualHeight : Int))

/-- Modelled from the spec: the render step of the Canvas Compositor (spec
4.3).  The pixel compositing and its bounds checking are performed by the
external sharp library invoked at route.ts lines 275-286
(`sharp({create: {width, height, ...}}).composite(compositeImages)`), whose
code is not part of this repository; following the spec's words, the render
fails with a CompositionError "if any Placement would place a page outside
the canvas bounds", and otherwise produces the flattened composite. -/
def renderComposite (w h : Int) (imgs : List ActualImage) : Except String Unit :=
  if imgs.any (outOfBounds w h) then Except.error compositionError else Except.ok ()

/-- C9: if any placement would put a page outside the canvas bounds (for
example because actual pixel dimensions diverge from recorded metadata), the
render step fails with a CompositionError and produces no composite. -/
theorem c9_out_of_bounds_fails (w h : Int) (imgs : List ActualImage)
    (hx : ∃ a ∈ imgs, outOfBounds w h a = true) :
    renderComposite w h imgs = Except.error compositionError ∧
    renderComposite w h imgs ≠ Except.ok () := by
  have hany : imgs.any (outOfBounds w h) = true := List.any_eq_true.mpr hx
  unfold renderComposite
  rw [if_pos hany]
  exact ⟨rfl, by intro hcontra; cases hcontra⟩

/-- Page whose actual pixel width (150) exceeds a 100-wide canvas. -/
def oversizedActual : ActualImage :=
  { placement := { input := "x.png", top := 0, left := 0 }
    actualWidth := 150, actualHeight := 50 }

/-- Witness for C9: a 150-pixel-wide page on a 100-by-100 canvas fails. -/
theorem c9_out_of_bounds_fails_witness :
    renderComposite 100 100 [oversizedActual] = Except.error compositionError :=
  (c9_out_of_bounds_fails 100 100 [oversizedActual]
    ⟨oversizedActual, by decide, by decide⟩).1

end Stitch
